import Mathlib

/-!
Verification of the pivid frame-accurate presentation pipeline
(`src/frame_player.cpp`, `src/pivid_server.cpp`) against its specification.

The Frame Player's `Timeline` is a `std::map<SteadyTime, DisplayAtom>`:
we embed it as an association list sorted strictly by key.  Times are
embedded as integers (the monotonic clock in abstract units), display
atoms as an opaque index.  The player thread body (one iteration of the
`while (!shutdown)` loop of `ThreadFramePlayer::player_thread`) becomes a
pure step function from the guarded state, plus the two inputs it reads
during the iteration: the clock (`sys->steady_time()`) and the driver's
readiness answer (`driver->update_done_yet`).
-/

namespace Pivid

/-- Display atoms are opaque to the scheduler; an index suffices. -/
abbrev Atom := Nat

/-- Monotonic clock readings and Timeline keys (`SteadyTime`). -/
abbrev Time := Int

/-- `Timeline` = `std::map<SteadyTime, DisplayAtom>`: a key-sorted
association list. -/
abbrev Timeline := List (Time × Atom)

/-- The key set of a timeline, in order. -/
def tlkeys (tl : Timeline) : List Time := tl.map Prod.fst

/-- The `std::map` representation invariant: keys strictly increasing. -/
abbrev TlSorted (tl : Timeline) : Prop :=
  List.Pairwise (fun p q => p.1 < q.1) tl

/-- `timeline.upper_bound(t)`: the index of the first entry whose key is
strictly greater than `t` (equivalently, for a sorted list, the number of
leading entries with key `≤ t`);  `tl.length` when no such entry exists. -/
def upperBound (tl : Timeline) (t : Time) : Nat :=
  match tl with
  | [] => 0
  | (k, _) :: rest => if k ≤ t then upperBound rest t + 1 else 0

/-- Lines 114-119 of `frame_player.cpp`:
`auto show = timeline.upper_bound(now); if (show != timeline.begin())
{ auto before = show; --before; if (before->first > shown) show = before; }`.
Returns the selected index (`tl.length` plays the role of `end()`). -/
def selectShow (tl : Timeline) (shown now : Time) : Nat :=
  let ub := upperBound tl now
  if ub = 0 then ub
  else
    match tl.get? (ub - 1) with
    | some before => if before.1 > shown then ub - 1 else ub
    | none => ub

/-- Lines 121-130: the entries the skip loop
`for (auto s = timeline.upper_bound(shown); s != show; ++s)` traverses. -/
def skipSegment (tl : Timeline) (shown now : Time) : List (Time × Atom) :=
  (tl.drop (upperBound tl shown)).take
    (selectShow tl shown now - upperBound tl shown)

/-- The scheduled times of the entries skipped in one iteration. -/
def skipKeys (tl : Timeline) (shown now : Time) : List Time :=
  (skipSegment tl shown now).map Prod.fst

/-- The fields of `ThreadFramePlayer` guarded by its mutex (the condition
variable itself carries no state we track). -/
structure PlayerState where
  timeline : Timeline
  shown : Time
  shutdown : Bool
deriving Repr, DecidableEq

/-- `last_shown()`: returns `shown` under the mutex. -/
def last_shown (st : PlayerState) : Time := st.shown

/-- What one loop iteration of `player_thread` did after updating state:
blocked waiting (empty timeline, no more frames, future frame, or hardware
busy), or submitted an atom to the driver. -/
inductive StepResult where
  | waitEmpty
  | waitEnd
  | waitFuture (deadline : Time)
  | waitBusy (tryAgain : Time)
  | submitted (key : Time) (atom : Atom)
deriving Repr, DecidableEq

/-- One iteration of the `while (!shutdown)` body of `player_thread`
(lines 97-164), entered with `shutdown` observed false.  `now` is the
`sys->steady_time()` reading; `done` the `driver->update_done_yet` answer
(consulted only on the branch that reaches line 147).  The skip loop
(lines 121-130) advances `shown` through each visited entry's key, so
afterwards `shown` is the last skipped key (`getLastD` keeps the old
value when nothing is skipped), and it emits one warning per visited
entry; line 124 logs the pair `(s->first, now - s->first)`, returned
here as the third component. -/
def playerStep (st : PlayerState) (now : Time) (done : Bool) :
    PlayerState × StepResult × List (Time × Time) :=
  if st.timeline.isEmpty then (st, .waitEmpty, [])
  else
    match st.timeline.get? (selectShow st.timeline st.shown now) with
    | none =>
      ({ st with shown := (skipKeys st.timeline st.shown now).getLastD st.shown },
        .waitEnd, (skipKeys st.timeline st.shown now).map (fun k => (k, now - k)))
    | some p =>
      if p.1 > now then
        ({ st with shown := (skipKeys st.timeline st.shown now).getLastD st.shown },
          .waitFuture p.1, (skipKeys st.timeline st.shown now).map (fun k => (k, now - k)))
      else if !done then
        ({ st with shown := (skipKeys st.timeline st.shown now).getLastD st.shown },
          .waitBusy (now + 5), (skipKeys st.timeline st.shown now).map (fun k => (k, now - k)))
      else
        ({ st with shown := p.1 }, .submitted p.1 p.2,
          (skipKeys st.timeline st.shown now).map (fun k => (k, now - k)))

/-- `ThreadFramePlayer::set_timeline` (lines 34-64): whether the incoming
timeline has exactly the keys of the current one, compared positionally
(`std::equal` over pairs of entries on `a.first == b.first`, guarded by a
size check). -/
def sameKeys (a b : Timeline) : Bool :=
  a.length == b.length &&
    (List.zip a b).all (fun pq => pq.1.1 == pq.2.1)

/-- `set_timeline`: store the new timeline; report whether the player
thread is woken (`!this->timeline.empty() && !same_keys`, evaluated after
the move, i.e. on the incoming timeline). -/
def set_timeline (st : PlayerState) (tl : Timeline) : PlayerState × Bool :=
  let same := sameKeys tl st.timeline
  ({ st with timeline := tl }, !tl.isEmpty && !same)

/-! ### Interleaved executions of one Frame Player -/

/-- An observable event of one player execution: one loop iteration of
the player thread (with the clock reading and driver readiness it saw),
or a `set_timeline` call from another thread.  All of these run under the
player's mutex, so an execution is a sequence of them. -/
inductive Ev where
  | tick (now : Time) (done : Bool)
  | setTl (tl : Timeline)
deriving Repr, DecidableEq

/-- Event well-formedness: installed timelines satisfy the `std::map`
invariant (key-sorted). -/
def evOK : Ev → Bool
  | .tick _ _ => true
  | .setTl tl => decide (TlSorted tl)

/-- The `driver->update` calls made by one step outcome. -/
def submissionsOf : StepResult → List (Time × Atom)
  | .submitted k a => [(k, a)]
  | _ => []

/-- Apply one event; also return the submissions it made to the driver. -/
def applyEv (st : PlayerState) : Ev → PlayerState × List (Time × Atom)
  | .tick now d =>
    ((playerStep st now d).1, submissionsOf (playerStep st now d).2.1)
  | .setTl tl => ((set_timeline st tl).1, [])

/-- Run a whole execution, collecting all driver submissions in order. -/
def run (st : PlayerState) : List Ev → PlayerState × List (Time × Atom)
  | [] => (st, [])
  | e :: es =>
    ((run (applyEv st e).1 es).1,
      (applyEv st e).2 ++ (run (applyEv st e).1 es).2)

/-! ### Main Loop tick arithmetic (`Server::main_loop_thread`,
pivid_server.cpp lines 96-115)

The source computes with `double`; the clock arithmetic is modelled
exactly over the rationals. -/

/-- One pass of the main loop with a script installed: given
`script->main_loop_hz`, the loop's `last_mono`, and the clock reading
`mono = cx.sys->clock(CLOCK_MONOTONIC)`, either the loop goes back to
sleep until `last_mono + period` (`none`), or it ticks: it advances
`last_mono = std::max(last_mono + period, mono - period)` (line 110) and
invokes the Script Runner; the new `last_mono` is returned. -/
def mainLoopTick (hz last_mono mono : Rat) : Option Rat :=
  if mono < last_mono + 1 / hz then none
  else some (max (last_mono + 1 / hz) (mono - 1 / hz))

/-! ### Mutex discipline of the two threads -/

/-- Primitive actions of the player thread and the main loop thread, as
far as their respective mutexes are concerned.  A condition-variable or
flag sleep is modelled as release, sleep, re-acquire. -/
inductive Act where
  | lockMutex
  | unlockMutex
  | sleepWait
  | driverDoneQuery
  | driverUpdate
  | runnerUpdate
deriving Repr, DecidableEq

/-- Pair each action of a thread's instruction path with whether that
thread holds its mutex at the moment the action runs. -/
def lockStates (held : Bool) : List Act → List (Act × Bool)
  | [] => []
  | a :: rest =>
    (a, held) :: lockStates
      (match a with
        | Act.lockMutex => true
        | Act.unlockMutex => false
        | _ => held) rest

/-- The player thread's submit path (frame_player.cpp lines 96-156): the
`unique_lock` is taken on entry (line 96); on the iteration that reaches
the driver there is no wait, and no unlock appears around the readiness
query (line 147) or the update submission (line 155). -/
def playerSubmitPath : List Act :=
  [Act.lockMutex, Act.driverDoneQuery, Act.driverUpdate]

/-- A waiting iteration of the player thread: `wakeup.wait(lock)` and
`sys->wait_until(..., &wakeup, &lock)` release the mutex for the duration
of the sleep and re-acquire it before returning. -/
def playerWaitPath : List Act :=
  [Act.lockMutex, Act.unlockMutex, Act.sleepWait, Act.lockMutex]

/-- One ticking pass of the Main Loop (pivid_server.cpp lines 108-114):
the mutex is explicitly dropped (`lock.unlock()`) before
`cx.runner->update(*copy)` and re-taken after (`lock.lock()`). -/
def mainLoopTickPath : List Act :=
  [Act.lockMutex, Act.unlockMutex, Act.runnerUpdate, Act.lockMutex]

/-! ### Facts about `std::map::upper_bound` on the sorted list embedding -/

theorem upperBound_le_length (tl : Timeline) (t : Time) :
    upperBound tl t ≤ tl.length := by
  induction tl with
  | nil => simp [upperBound]
  | cons p rest ih =>
    obtain ⟨k, a⟩ := p
    simp only [upperBound, List.length_cons]
    by_cases h : k ≤ t
    · rw [if_pos h]; omega
    · rw [if_neg h]; omega

/-- Entries before the upper bound have keys `≤ t` (no sortedness needed:
they are the leading run). -/
theorem key_le_of_lt_upperBound (tl : Timeline) (t : Time) :
    ∀ (i : Nat) (hi : i < tl.length), i < upperBound tl t →
      (tl.get ⟨i, hi⟩).1 ≤ t := by
  induction tl with
  | nil => intro i hi _; simp at hi
  | cons p rest ih =>
    obtain ⟨k, a⟩ := p
    intro i hi hub
    simp only [upperBound] at hub
    by_cases h : k ≤ t
    · rw [if_pos h] at hub
      match i with
      | 0 => simpa using h
      | Nat.succ j => exact ih j (by simpa using hi) (by omega)
    · rw [if_neg h] at hub; omega

/-- In a sorted timeline, entries at or past the upper bound have keys
`> t`. -/
theorem lt_key_of_upperBound_le :
    ∀ (tl : Timeline) (t : Time), TlSorted tl →
      ∀ (i : Nat) (hi : i < tl.length), upperBound tl t ≤ i →
        t < (tl.get ⟨i, hi⟩).1
  | [], _, _, i, hi, _ => absurd hi (by simp)
  | (k, a) :: rest, t, hs, 0, hi, hub => by
      simp only [upperBound] at hub
      by_cases h : k ≤ t
      · rw [if_pos h] at hub; omega
      · exact not_le.mp h
  | (k, a) :: rest, t, hs, Nat.succ j, hi, hub => by
      obtain ⟨hhead, htail⟩ := List.pairwise_cons.mp hs
      simp only [upperBound] at hub
      have hj : j < rest.length := by simpa using hi
      by_cases h : k ≤ t
      · rw [if_pos h] at hub
        exact lt_key_of_upperBound_le rest t htail j hj (by omega)
      · have hmem : rest.get ⟨j, hj⟩ ∈ rest := List.get_mem rest j hj
        exact lt_trans (not_le.mp h) (hhead _ hmem)

/-- In a sorted timeline, keys are strictly increasing with the index. -/
theorem key_lt_key (tl : Timeline) (hs : TlSorted tl)
    (i j : Nat) (hi : i < tl.length) (hj : j < tl.length) (hij : i < j) :
    (tl.get ⟨i, hi⟩).1 < (tl.get ⟨j, hj⟩).1 :=
  (List.pairwise_iff_get.mp hs) ⟨i, hi⟩ ⟨j, hj⟩ hij

/-- Characterization: the upper bound sits right after index `i` when
`i`'s key is `≤ t` and the next key (if any) is `> t`. -/
theorem upperBound_eq_succ (tl : Timeline) (t : Time) (hs : TlSorted tl)
    (i : Nat) (hi : i < tl.length) (hk : (tl.get ⟨i, hi⟩).1 ≤ t)
    (hnext : ∀ h2 : i + 1 < tl.length, t < (tl.get ⟨i + 1, h2⟩).1) :
    upperBound tl t = i + 1 := by
  have hub_le := upperBound_le_length tl t
  by_contra hne
  rcases Nat.lt_or_ge (upperBound tl t) (i + 1) with hlt | hge
  · have := lt_key_of_upperBound_le tl t hs i hi (by omega)
    exact absurd this (not_lt.mpr hk)
  · have hlen : i + 1 < tl.length := by omega
    have h1 := key_le_of_lt_upperBound tl t (i + 1) hlen (by omega)
    have h2 := hnext hlen
    exact absurd h2 (not_lt.mpr h1)

/-- When every key is `≤ t`, the upper bound is `end()`. -/
theorem upperBound_eq_length (tl : Timeline) (t : Time)
    (h : ∀ p ∈ tl, p.1 ≤ t) : upperBound tl t = tl.length := by
  induction tl with
  | nil => rfl
  | cons p rest ih =>
    obtain ⟨k, a⟩ := p
    simp only [upperBound, List.length_cons]
    rw [if_pos (h (k, a) (by simp))]
    rw [ih (fun q hq => h q (by simp [hq]))]

/-! ### Facts about the selection step (lines 113-119) -/

theorem selectShow_le_length (tl : Timeline) (sh now : Time) :
    selectShow tl sh now ≤ tl.length := by
  have hub := upperBound_le_length tl now
  unfold selectShow
  by_cases h : upperBound tl now = 0
  · simp [h]
  · simp only [if_neg h]
    cases hg : tl.get? (upperBound tl now - 1) with
    | none => simpa using hub
    | some b =>
      by_cases hb : b.1 > sh
      · simp [hb]; omega
      · simp [hb]; omega

/-- When the selected entry exists and is due (`key ≤ now`), the
predecessor branch was taken: its key is strictly newer than `shown` and
the selected index is `upper_bound(now) - 1`. -/
theorem selectShow_due (tl : Timeline) (sh now : Time) (p : Time × Atom)
    (hs : TlSorted tl)
    (hget : tl.get? (selectShow tl sh now) = some p) (hle : p.1 ≤ now) :
    sh < p.1 ∧ selectShow tl sh now + 1 = upperBound tl now := by
  have hub := upperBound_le_length tl now
  unfold selectShow at hget ⊢
  by_cases h : upperBound tl now = 0
  · -- upper bound at the start: the head is in the future, contradiction
    simp only [if_pos h] at hget
    rw [h] at hget ⊢
    have hlen : 0 < tl.length := by
      rcases List.get?_eq_some.mp hget with ⟨hl, _⟩
      exact hl
    have hp : tl.get ⟨0, hlen⟩ = p := by
      rw [List.get?_eq_get hlen] at hget
      exact Option.some.inj hget
    have := lt_key_of_upperBound_le tl now hs 0 hlen (by omega)
    rw [hp] at this
    exact absurd this (not_lt.mpr hle)
  · simp only [if_neg h] at hget ⊢
    have hlt : upperBound tl now - 1 < tl.length := by omega
    rw [List.get?_eq_get hlt] at hget ⊢
    by_cases hb : (tl.get ⟨upperBound tl now - 1, hlt⟩).1 > sh
    · simp only [if_pos hb] at hget ⊢
      rw [List.get?_eq_get hlt] at hget
      have hp : tl.get ⟨upperBound tl now - 1, hlt⟩ = p := Option.some.inj hget
      rw [hp] at hb
      exact ⟨hb, by omega⟩
    · simp only [if_neg hb] at hget ⊢
      have hlen : upperBound tl now < tl.length := by
        rcases List.get?_eq_some.mp hget with ⟨hl, _⟩
        exact hl
      have hp : tl.get ⟨upperBound tl now, hlen⟩ = p := by
        rw [List.get?_eq_get hlen] at hget
        exact Option.some.inj hget
      have := lt_key_of_upperBound_le tl now hs (upperBound tl now) hlen (by omega)
      rw [hp] at this
      exact absurd this (not_lt.mpr hle)

/-! ### Facts about the skip loop segment (lines 121-130) -/

/-- Every entry the skip loop visits sits at an index in
`[upper_bound(shown), show)`. -/
theorem skipSegment_mem (tl : Timeline) (sh now : Time) (q : Time × Atom)
    (hq : q ∈ skipSegment tl sh now) :
    ∃ (j : Nat) (hj : j < tl.length),
      upperBound tl sh ≤ j ∧ j < selectShow tl sh now ∧ tl.get ⟨j, hj⟩ = q := by
  rcases List.mem_iff_get.mp hq with ⟨m, hm⟩
  have hml := m.isLt
  simp only [skipSegment, List.length_take, List.length_drop] at hml
  have hj : upperBound tl sh + (m : Nat) < tl.length := by omega
  refine ⟨upperBound tl sh + (m : Nat), hj, by omega, by omega, ?_⟩
  rw [← hm]
  simp [skipSegment, List.get_take', List.get_drop']

/-- Conversely, every entry at an index in `[upper_bound(shown), show)` is
visited by the skip loop. -/
theorem skipSegment_get (tl : Timeline) (sh now : Time) (j : Nat)
    (hj : j < tl.length) (h1 : upperBound tl sh ≤ j)
    (h2 : j < selectShow tl sh now) :
    tl.get ⟨j, hj⟩ ∈ skipSegment tl sh now := by
  have hlen : j - upperBound tl sh < (skipSegment tl sh now).length := by
    simp only [skipSegment, List.length_take, List.length_drop]
    omega
  have hget : (skipSegment tl sh now).get ⟨j - upperBound tl sh, hlen⟩ =
      tl.get ⟨j, hj⟩ := by
    simp only [skipSegment, List.get_take', List.get_drop']
    congr 1
    exact Fin.ext (by simp; omega)
  rw [← hget]
  exact List.get_mem _ _ _

/-- Skipped keys are strictly newer than the old `shown`. -/
theorem skipKeys_gt_shown (tl : Timeline) (sh now : Time) (hs : TlSorted tl)
    (k : Time) (hk : k ∈ skipKeys tl sh now) : sh < k := by
  rcases List.mem_map.mp hk with ⟨q, hq, rfl⟩
  rcases skipSegment_mem tl sh now q hq with ⟨j, hj, hu, _, hget⟩
  have := lt_key_of_upperBound_le tl sh hs j hj hu
  rw [hget] at this
  exact this

/-- Skipped keys strictly precede the selected entry's key. -/
theorem skipKeys_lt_selected (tl : Timeline) (sh now : Time) (hs : TlSorted tl)
    (p : Time × Atom) (hp : tl.get? (selectShow tl sh now) = some p)
    (k : Time) (hk : k ∈ skipKeys tl sh now) : k < p.1 := by
  rcases List.mem_map.mp hk with ⟨q, hq, rfl⟩
  rcases skipSegment_mem tl sh now q hq with ⟨j, hj, _, hlt, hget⟩
  have hsl : selectShow tl sh now < tl.length := (List.get?_eq_some.mp hp).1
  have hkey := key_lt_key tl hs j (selectShow tl sh now) hj hsl hlt
  rw [hget] at hkey
  rw [List.get?_eq_get hsl] at hp
  rw [Option.some.inj hp] at hkey
  exact hkey

/-- Skipped keys are keys of the timeline. -/
theorem skipKeys_subset (tl : Timeline) (sh now : Time) :
    ∀ k ∈ skipKeys tl sh now, k ∈ tlkeys tl := by
  intro k hk
  rcases List.mem_map.mp hk with ⟨q, hq, rfl⟩
  have hmem : q ∈ tl :=
    ((List.take_sublist _ _).trans (List.drop_sublist _ _)).subset hq
  exact List.mem_map_of_mem Prod.fst hmem

/-- The skip loop visits exactly the timeline keys strictly between the
old `shown` and the selected entry's key. -/
theorem skipKeys_iff (tl : Timeline) (sh now : Time) (hs : TlSorted tl)
    (p : Time × Atom) (hp : tl.get? (selectShow tl sh now) = some p)
    (k : Time) :
    k ∈ skipKeys tl sh now ↔ k ∈ tlkeys tl ∧ sh < k ∧ k < p.1 := by
  constructor
  · intro hk
    exact ⟨skipKeys_subset _ _ _ k hk, skipKeys_gt_shown _ _ _ hs k hk,
      skipKeys_lt_selected _ _ _ hs p hp k hk⟩
  · rintro ⟨hmem, hgt, hlt⟩
    rcases List.mem_map.mp hmem with ⟨q, hq, rfl⟩
    rcases List.mem_iff_get.mp hq with ⟨⟨j, hj⟩, hget⟩
    have hsl : selectShow tl sh now < tl.length := (List.get?_eq_some.mp hp).1
    have hu : upperBound tl sh ≤ j := by
      by_contra hc
      have := key_le_of_lt_upperBound tl sh j hj (by omega)
      rw [hget] at this
      exact absurd hgt (not_lt.mpr this)
    have hjs : j < selectShow tl sh now := by
      rcases Nat.lt_or_ge j (selectShow tl sh now) with h | h
      · exact h
      · exfalso
        rw [List.get?_eq_get hsl] at hp
        have hpv := Option.some.inj hp
        rcases Nat.eq_or_lt_of_le h with heq | hgt2
        · rw [← hget, ← hpv] at hlt
          simp only [← heq] at hlt
          exact lt_irrefl _ hlt
        · have := key_lt_key tl hs _ _ hsl hj hgt2
          rw [hget, hpv] at this
          exact absurd hlt (not_lt.mpr (le_of_lt this))
    have := skipSegment_get tl sh now j hj hu hjs
    rw [hget] at this
    exact List.mem_map_of_mem Prod.fst this

/-- Skips are reported in increasing key order. -/
theorem skipKeys_pairwise (tl : Timeline) (sh now : Time) (hs : TlSorted tl) :
    List.Pairwise (fun a b => a < b) (skipKeys tl sh now) := by
  have hsub : (skipSegment tl sh now).Sublist tl :=
    (List.take_sublist _ _).trans (List.drop_sublist _ _)
  exact List.pairwise_map.mpr (hs.sublist hsub)

/-- `getLastD` returns the default or a member. -/
theorem getLastD_eq_or_mem (l : List Time) (d : Time) :
    l.getLastD d = d ∨ l.getLastD d ∈ l := by
  cases l with
  | nil => exact Or.inl rfl
  | cons a t =>
    right
    rw [List.getLastD_eq_getLast?, List.getLast?_eq_getLast _ (by simp)]
    exact List.getLast_mem _

/-! ### Branch analysis of one player iteration -/

/-- Case analysis of `playerStep`: the timeline and shutdown flag are
untouched, the warnings are exactly the skips paired with their age, and
either the iteration blocks (with `shown` advanced through the skipped
keys) or it submits the selected due entry with `done = true`. -/
theorem playerStep_cases (st : PlayerState) (now : Time) (done : Bool) :
    (playerStep st now done).1.timeline = st.timeline ∧
    (playerStep st now done).1.shutdown = st.shutdown ∧
    (playerStep st now done).2.2 =
      (skipKeys st.timeline st.shown now).map (fun k => (k, now - k)) ∧
    (((playerStep st now done).1.shown =
        (skipKeys st.timeline st.shown now).getLastD st.shown ∧
      ∀ k a, (playerStep st now done).2.1 ≠ StepResult.submitted k a) ∨
     (∃ p, st.timeline.get? (selectShow st.timeline st.shown now) = some p ∧
       p.1 ≤ now ∧ done = true ∧
       (playerStep st now done).2.1 = StepResult.submitted p.1 p.2 ∧
       (playerStep st now done).1.shown = p.1)) := by
  by_cases hemp : st.timeline.isEmpty
  · have htl : st.timeline = [] := List.isEmpty_iff.mp hemp
    simp only [playerStep, if_pos hemp]
    refine ⟨by trivial, by trivial, by simp [skipKeys, skipSegment, htl],
      Or.inl ⟨by simp [skipKeys, skipSegment, htl], by intro k a; simp⟩⟩
  · simp only [playerStep, if_neg hemp]
    cases hget : st.timeline.get? (selectShow st.timeline st.shown now) with
    | none =>
      dsimp only
      exact ⟨by trivial, by trivial, by trivial,
        Or.inl ⟨by trivial, by intro k a; simp⟩⟩
    | some p =>
      dsimp only
      by_cases hfut : p.1 > now
      · simp only [if_pos hfut]
        exact ⟨by trivial, by trivial, by trivial,
          Or.inl ⟨by trivial, by intro k a; simp⟩⟩
      · simp only [if_neg hfut]
        cases done with
        | false =>
          simp only [Bool.not_false, if_true]
          exact ⟨by trivial, by trivial, by trivial,
            Or.inl ⟨by trivial, by intro k a; simp⟩⟩
        | true =>
          simp only [Bool.not_true, Bool.false_eq_true, if_false]
          exact ⟨by trivial, by trivial, by trivial,
            Or.inr ⟨p, rfl, le_of_not_lt hfut, by trivial, by trivial,
              by trivial⟩⟩

/-- A submission is always of the selected entry, which is due, strictly
newer than the old `shown`, and becomes the new `shown`; the driver was
ready. -/
theorem playerStep_submitted (st : PlayerState) (now : Time) (done : Bool)
    (k : Time) (a : Atom) (hs : TlSorted st.timeline)
    (hsub : (playerStep st now done).2.1 = StepResult.submitted k a) :
    st.timeline.get? (selectShow st.timeline st.shown now) = some (k, a) ∧
      st.shown < k ∧ k ≤ now ∧ done = true ∧
      (playerStep st now done).1.shown = k := by
  rcases (playerStep_cases st now done).2.2.2 with ⟨_, hne⟩ | ⟨p, hp, hle, hd, he, hsh⟩
  · exact absurd hsub (hne k a)
  · rw [he] at hsub
    have hk : p.1 = k ∧ p.2 = a := by
      have := StepResult.submitted.injEq p.1 p.2 k a ▸ congrArg id hsub
      simpa using this
    obtain ⟨hk1, hk2⟩ := hk
    have hdue := selectShow_due st.timeline st.shown now p hs hp hle
    refine ⟨?_, ?_, ?_, hd, ?_⟩
    · rw [← hk1, ← hk2]; simpa using hp
    · rw [← hk1]; exact hdue.1
    · rw [← hk1]; exact hle
    · rw [← hk1]; exact hsh

/-- `shown` never decreases across one iteration. -/
theorem playerStep_shown_mono (st : PlayerState) (now : Time) (done : Bool)
    (hs : TlSorted st.timeline) :
    st.shown ≤ (playerStep st now done).1.shown := by
  rcases (playerStep_cases st now done).2.2.2 with ⟨heq, _⟩ | ⟨p, hp, hle, _, _, hsh⟩
  · rw [heq]
    rcases getLastD_eq_or_mem (skipKeys st.timeline st.shown now) st.shown with
      h | h
    · rw [h]
    · exact le_of_lt (skipKeys_gt_shown _ _ _ hs _ h)
  · rw [hsh]
    exact le_of_lt (selectShow_due st.timeline st.shown now p hs hp hle).1

/-- When `shown` changes, it changes to a key of the current timeline. -/
theorem playerStep_shown_mem (st : PlayerState) (now : Time) (done : Bool)
    (hne : (playerStep st now done).1.shown ≠ st.shown) :
    (playerStep st now done).1.shown ∈ tlkeys st.timeline := by
  rcases (playerStep_cases st now done).2.2.2 with ⟨heq, _⟩ | ⟨p, hp, _, _, _, hsh⟩
  · rw [heq] at hne ⊢
    rcases getLastD_eq_or_mem (skipKeys st.timeline st.shown now) st.shown with
      h | h
    · exact absurd h hne
    · exact skipKeys_subset _ _ _ _ h
  · rw [hsh]
    have hmem : p ∈ st.timeline := List.get?_mem hp
    exact List.mem_map_of_mem Prod.fst hmem

/-- With the hardware never ready (`done = false`), no submission is
possible. -/
theorem playerStep_no_submit_of_busy (st : PlayerState) (now : Time)
    (k : Time) (a : Atom) :
    (playerStep st now false).2.1 ≠ StepResult.submitted k a := by
  rcases (playerStep_cases st now false).2.2.2 with ⟨_, hne⟩ | ⟨p, _, _, hd, _, _⟩
  · exact hne k a
  · exact absurd hd (by simp)

/-! ### `set_timeline`: key-set comparison -/

theorem sameKeys_cons (p q : Time × Atom) (a b : Timeline) :
    sameKeys (p :: a) (q :: b) = ((p.1 == q.1) && sameKeys a b) := by
  simp only [sameKeys, List.length_cons, List.zip_cons_cons, List.all_cons]
  cases h1 : p.1 == q.1 <;> cases h2 : a.length == b.length <;>
    simp_all [Nat.succ_inj]

/-- The positional `std::equal` comparison of `set_timeline` recognizes
exactly equality of the key lists. -/
theorem sameKeys_iff : ∀ (a b : Timeline),
    sameKeys a b = true ↔ tlkeys a = tlkeys b
  | [], [] => by simp [sameKeys, tlkeys]
  | [], q :: b => by simp [sameKeys, tlkeys]
  | p :: a, [] => by simp [sameKeys, tlkeys]
  | p :: a, q :: b => by
    rw [sameKeys_cons]
    simp only [tlkeys, List.map_cons, List.cons.injEq, Bool.and_eq_true,
      beq_iff_eq]
    rw [show (List.map Prod.fst a = List.map Prod.fst b) =
        (tlkeys a = tlkeys b) from rfl, ← sameKeys_iff a b]

theorem submissionsOf_eq_nil (r : StepResult)
    (h : ∀ k a, r ≠ StepResult.submitted k a) : submissionsOf r = [] := by
  cases r with
  | submitted k a => exact absurd rfl (h k a)
  | waitEmpty => rfl
  | waitEnd => rfl
  | waitFuture d => rfl
  | waitBusy t => rfl

/-- Master invariant of interleaved executions: the timeline stays
sorted, `shown` never decreases, and the submitted keys are strictly
increasing, strictly above the initial `shown`, and at most the final
`shown`. -/
theorem run_master (evs : List Ev) (st : PlayerState)
    (hs : TlSorted st.timeline) (hwf : ∀ e ∈ evs, evOK e = true) :
    TlSorted (run st evs).1.timeline ∧
    st.shown ≤ (run st evs).1.shown ∧
    List.Pairwise (fun p q => p.1 < q.1) (run st evs).2 ∧
    ∀ p ∈ (run st evs).2, st.shown < p.1 ∧ p.1 ≤ (run st evs).1.shown := by
  induction evs generalizing st with
  | nil => exact ⟨hs, le_refl _, List.Pairwise.nil, by simp [run]⟩
  | cons e es ih =>
    have hwf1 : evOK e = true := hwf e (by simp)
    have hwfs : ∀ e2 ∈ es, evOK e2 = true := fun e2 h2 => hwf e2 (by simp [h2])
    cases e with
    | setTl tl =>
      have hs1 : TlSorted (applyEv st (Ev.setTl tl)).1.timeline :=
        of_decide_eq_true hwf1
      have hsh : (applyEv st (Ev.setTl tl)).1.shown = st.shown := rfl
      obtain ⟨i1, i2, i3, i4⟩ := ih (applyEv st (Ev.setTl tl)).1 hs1 hwfs
      refine ⟨i1, ?_, ?_, ?_⟩
      · rw [show (run st (Ev.setTl tl :: es)).1 =
          (run (applyEv st (Ev.setTl tl)).1 es).1 from rfl]
        rw [hsh] at i2
        exact i2
      · simpa [run, applyEv] using i3
      · intro p hp
        simp only [run, applyEv, List.nil_append] at hp
        have := i4 p hp
        rw [hsh] at this
        exact this
    | tick now d =>
      have htl : (playerStep st now d).1.timeline = st.timeline :=
        (playerStep_cases st now d).1
      have hs1 : TlSorted (applyEv st (Ev.tick now d)).1.timeline := by
        show TlSorted (playerStep st now d).1.timeline
        rw [htl]; exact hs
      obtain ⟨i1, i2, i3, i4⟩ := ih (applyEv st (Ev.tick now d)).1 hs1 hwfs
      have hmono : st.shown ≤ (playerStep st now d).1.shown :=
        playerStep_shown_mono st now d hs
      have hst1 : (applyEv st (Ev.tick now d)).1 = (playerStep st now d).1 :=
        rfl
      rcases (playerStep_cases st now d).2.2.2 with
        ⟨_, hne⟩ | ⟨p, hp, hle, _, hres, hshp⟩
      · have hnil : (applyEv st (Ev.tick now d)).2 = [] :=
          submissionsOf_eq_nil _ hne
        refine ⟨i1, ?_, ?_, ?_⟩
        · exact le_trans hmono (by rw [← hst1]; exact i2)
        · simp only [run, hnil, List.nil_append]
          exact i3
        · intro q hq
          simp only [run, hnil, List.nil_append] at hq
          have := i4 q hq
          rw [hst1] at this
          exact ⟨lt_of_le_of_lt hmono this.1, this.2⟩
      · have hone : (applyEv st (Ev.tick now d)).2 = [(p.1, p.2)] := by
          show submissionsOf (playerStep st now d).2.1 = _
          rw [hres]
          rfl
        have hkgt : st.shown < p.1 :=
          (selectShow_due st.timeline st.shown now p hs hp hle).1
        refine ⟨i1, ?_, ?_, ?_⟩
        · exact le_trans hmono (by rw [← hst1]; exact i2)
        · simp only [run, hone, List.singleton_append]
          refine List.pairwise_cons.mpr ⟨?_, i3⟩
          intro q hq
          have := (i4 q hq).1
          rw [hst1, hshp] at this
          exact this
        · intro q hq
          simp only [run, hone, List.singleton_append, List.mem_cons] at hq
          rcases hq with rfl | hq
          · refine ⟨hkgt, ?_⟩
            calc (p.1, p.2).1 = (applyEv st (Ev.tick now d)).1.shown := by
                  rw [hst1, hshp]
              _ ≤ _ := i2
          · have := i4 q hq
            rw [hst1] at this
            exact ⟨lt_of_le_of_lt hmono this.1, this.2⟩

/-- Executions compose. -/
theorem run_append (st : PlayerState) (evs1 evs2 : List Ev) :
    (run st (evs1 ++ evs2)).1 = (run (run st evs1).1 evs2).1 ∧
    (run st (evs1 ++ evs2)).2 =
      (run st evs1).2 ++ (run (run st evs1).1 evs2).2 := by
  induction evs1 generalizing st with
  | nil => simp [run]
  | cons e es ih =>
    obtain ⟨h1, h2⟩ := ih (applyEv st e).1
    refine ⟨h1, ?_⟩
    show (applyEv st e).2 ++ (run (applyEv st e).1 (es ++ evs2)).2 =
      ((applyEv st e).2 ++ (run (applyEv st e).1 es).2) ++
        (run (run (applyEv st e).1 es).1 evs2).2
    rw [h2, List.append_assoc]

/-- Reduction of the submit branch: a non-empty timeline whose selected
entry exists and is due, with the driver ready, submits that entry and
advances `shown` to its key. -/
theorem playerStep_submit_branch (tl : Timeline) (sh now : Time)
    (p : Time × Atom) (hne : tl.isEmpty = false)
    (hp : tl.get? (selectShow tl sh now) = some p) (hle : ¬ p.1 > now) :
    (playerStep ⟨tl, sh, false⟩ now true).2.1 = StepResult.submitted p.1 p.2 ∧
    (playerStep ⟨tl, sh, false⟩ now true).1.shown = p.1 := by
  have hne2 : ¬ (PlayerState.mk tl sh false).timeline.isEmpty = true := by
    show ¬ tl.isEmpty = true
    rw [hne]
    simp
  simp only [playerStep, if_neg hne2]
  cases hget : tl.get? (selectShow tl sh now) with
  | none =>
    rw [hp] at hget
    exact absurd hget (by simp)
  | some q =>
    obtain rfl : q = p := by
      rw [hget] at hp
      exact Option.some.inj hp
    dsimp only
    rw [if_neg hle]
    simp only [Bool.not_true, Bool.false_eq_true, if_false]
    exact ⟨by trivial, by trivial⟩

/-! ## Claim theorems -/

/-- C9: `set_timeline` changes only the `timeline` field: `shown`
(hence the result of `last_shown()`) and `shutdown` immediately after the
call equal their values immediately before it, for any incoming timeline,
empty or not. -/
theorem set_timeline_frame_effect (st : PlayerState) (tl : Timeline) :
    (set_timeline st tl).1.timeline = tl ∧
    last_shown (set_timeline st tl).1 = last_shown st ∧
    (set_timeline st tl).1.shutdown = st.shutdown :=
  ⟨rfl, rfl, rfl⟩

/-- C2 counterexample: replacing a non-empty timeline with the empty one
changes the key set, yet `set_timeline` does not wake the player thread
(`!this->timeline.empty()` is evaluated on the newly installed, empty
timeline). -/
theorem set_timeline_wakeup_cex :
    tlkeys ([] : Timeline) ≠
      tlkeys [((10 : Time), (0 : Atom))] ∧
    (set_timeline ⟨[((10 : Time), (0 : Atom))], 0, false⟩ []).2 = false := by
  constructor
  · simp [tlkeys]
  · rfl

/-- C2 amended: the new timeline takes effect (it is the state's timeline
when the call returns), and the player thread is woken iff the *new*
timeline is non-empty and its key set differs from the current one:
atom-only changes cause no wakeup, and neither does replacement by an
empty timeline. -/
theorem set_timeline_wakeup (st : PlayerState) (tl : Timeline) :
    (set_timeline st tl).1.timeline = tl ∧
    ((set_timeline st tl).2 = true ↔
      tl ≠ [] ∧ tlkeys tl ≠ tlkeys st.timeline) := by
  refine ⟨rfl, ?_⟩
  show (!tl.isEmpty && !sameKeys tl st.timeline) = true ↔ _
  rw [Bool.and_eq_true, Bool.not_eq_true', Bool.not_eq_true']
  constructor
  · rintro ⟨h1, h2⟩
    refine ⟨fun hnil => by simp [hnil] at h1, fun hkeys => ?_⟩
    rw [← sameKeys_iff] at hkeys
    rw [h2] at hkeys
    exact Bool.false_ne_true hkeys
  · rintro ⟨h1, h2⟩
    constructor
    · cases htl : tl.isEmpty with
      | false => rfl
      | true => exact absurd (List.isEmpty_iff.mp htl) h1
    · cases hsk : sameKeys tl st.timeline with
      | false => rfl
      | true => exact absurd ((sameKeys_iff _ _).mp hsk) h2

/-- C7: a main-loop pass that invokes the Script Runner (returns `some`)
sets `last_mono := max(last_mono + period, mono - period)` with
`period = 1/main_loop_hz`; consequently `last_mono` strictly increases,
advances by at least one period, and never trails `mono` by more than one
period. -/
theorem mainLoop_tick_advance (hz lm mono lm2 : Rat) (hhz : 0 < hz)
    (htick : mainLoopTick hz lm mono = some lm2) :
    lm2 = max (lm + 1 / hz) (mono - 1 / hz) ∧
    lm + 1 / hz ≤ lm2 ∧ mono - 1 / hz ≤ lm2 ∧ lm < lm2 := by
  unfold mainLoopTick at htick
  split at htick
  · exact absurd htick (by simp)
  · have heq := (Option.some.inj htick).symm
    have hper : 0 < 1 / hz := by positivity
    refine ⟨heq, ?_, ?_, ?_⟩
    · rw [heq]; exact le_max_left _ _
    · rw [heq]; exact le_max_right _ _
    · rw [heq]
      calc lm < lm + 1 / hz := by linarith
        _ ≤ _ := le_max_left _ _

theorem mainLoop_tick_advance_witness :
    (9 : Rat) / 2 = max ((0 : Rat) + 1 / 2) ((5 : Rat) - 1 / 2) ∧
    (0 : Rat) + 1 / 2 ≤ 9 / 2 ∧ (5 : Rat) - 1 / 2 ≤ 9 / 2 ∧
    (0 : Rat) < 9 / 2 :=
  mainLoop_tick_advance 2 0 5 (9 / 2) (by norm_num)
    (by norm_num [mainLoopTick])

/-- C8 counterexample: on the player thread's submit path the driver
`update` call runs with the player's mutex held (the `unique_lock` taken
at line 96 is not released before line 155). -/
theorem mutex_across_driver_update_cex :
    (Act.driverUpdate, true) ∈ lockStates false playerSubmitPath := by
  decide

/-- C8 amended: the Main Loop's mutex is indeed never held across a
Script Runner `update` call, and the player thread holds its mutex except
while sleeping — but that includes the driver calls: both
`update_done_yet` and `update` run with the player's mutex held. -/
theorem mutex_discipline :
    (∀ pr ∈ lockStates false mainLoopTickPath,
      pr.1 = Act.runnerUpdate → pr.2 = false) ∧
    (∀ pr ∈ lockStates false playerWaitPath,
      pr.1 = Act.sleepWait → pr.2 = false) ∧
    (∀ pr ∈ lockStates false playerSubmitPath,
      pr.1 = Act.driverDoneQuery → pr.2 = true) ∧
    (∀ pr ∈ lockStates false playerSubmitPath,
      pr.1 = Act.driverUpdate → pr.2 = true) := by
  decide

/-- C10: a submission's key always strictly exceeds the current `shown`,
and the same holds immediately after a wholesale `set_timeline`
replacement (whose key set may include already-realized keys, with new
atoms): entries at keys `≤ shown` can never reach the driver. -/
theorem no_resubmission (st : PlayerState) (now : Time) (done : Bool)
    (k : Time) (a : Atom) :
    (TlSorted st.timeline →
      (playerStep st now done).2.1 = StepResult.submitted k a →
      last_shown st < k) ∧
    ∀ tl : Timeline, TlSorted tl →
      (playerStep (set_timeline st tl).1 now done).2.1 =
        StepResult.submitted k a →
      last_shown st < k := by
  constructor
  · intro hs hsub
    exact (playerStep_submitted st now done k a hs hsub).2.1
  · intro tl hs hsub
    have hs2 : TlSorted (set_timeline st tl).1.timeline := hs
    have := (playerStep_submitted (set_timeline st tl).1 now done k a
      hs2 hsub).2.1
    exact this

theorem no_resubmission_witness :
    last_shown (⟨[((10 : Time), (0 : Atom))], 0, false⟩ : PlayerState) <
      10 :=
  (no_resubmission ⟨[((10 : Time), (0 : Atom))], 0, false⟩ 10 true 10 0).1
    (by decide) (by decide)

/-- No tick with the driver busy can contribute a submission. -/
theorem run_no_submissions (evs : List Ev) :
    ∀ st : PlayerState, (∀ now d, Ev.tick now d ∈ evs → d = false) →
      (run st evs).2 = [] := by
  induction evs with
  | nil => intro st _; rfl
  | cons e es ih =>
    intro st hbusy
    have h1 : (applyEv st e).2 = [] := by
      cases e with
      | setTl tl => rfl
      | tick now d =>
        have hd : d = false := hbusy now d (by simp)
        subst hd
        exact submissionsOf_eq_nil _
          (fun k a => playerStep_no_submit_of_busy st now k a)
    show (applyEv st e).2 ++ (run (applyEv st e).1 es).2 = []
    rw [h1, ih (applyEv st e).1
      (fun now d h => hbusy now d (by simp [h])), List.append_nil]

/-- C4 counterexample: with `update_done_yet` false at the only
iteration, no `update` is submitted, but `shown` still advances (from the
zero sentinel to the skipped key `10`), so `last_shown` does not stay at
its prior value. -/
theorem busy_advance_cex :
    (run ⟨[((10 : Time), (0 : Atom)), (20, 1)], 0, false⟩
        [Ev.tick 25 false]).2 = [] ∧
    last_shown (run ⟨[((10 : Time), (0 : Atom)), (20, 1)], 0, false⟩
        [Ev.tick 25 false]).1 = 10 ∧
    last_shown
      (⟨[((10 : Time), (0 : Atom)), (20, 1)], 0, false⟩ : PlayerState)
      = 0 := by
  decide

/-- C4 amended: when `update_done_yet` answers false at every iteration,
the player never calls the driver's `update` (no submissions over any
schedule of clock advances and timeline replacements); `shown`, however,
can still advance — only ever to a skipped key (the skip loop runs
before the hardware-busy check), never by a submission. -/
theorem busy_never_updates (st : PlayerState) (evs : List Ev)
    (hbusy : ∀ now d, Ev.tick now d ∈ evs → d = false) :
    (run st evs).2 = [] ∧
    ∀ (st2 : PlayerState) (now : Time),
      last_shown (playerStep st2 now false).1 = last_shown st2 ∨
      last_shown (playerStep st2 now false).1 ∈
        skipKeys st2.timeline st2.shown now := by
  refine ⟨run_no_submissions evs st hbusy, ?_⟩
  intro st2 now
  rcases (playerStep_cases st2 now false).2.2.2 with
    ⟨heq, _⟩ | ⟨p, _, _, hd, _, _⟩
  · rcases getLastD_eq_or_mem (skipKeys st2.timeline st2.shown now)
      st2.shown with h | h
    · left
      show (playerStep st2 now false).1.shown = st2.shown
      rw [heq, h]
    · right
      show (playerStep st2 now false).1.shown ∈ _
      rw [heq]
      exact h
  · exact absurd hd (by simp)

theorem busy_never_updates_witness :
    (run ⟨[((10 : Time), (1 : Atom)), (20, 2)], 0, false⟩
      [Ev.tick 25 false, Ev.setTl [(30, 2)], Ev.tick 40 false]).2 = [] :=
  (busy_never_updates ⟨[((10 : Time), (1 : Atom)), (20, 2)], 0, false⟩
    [Ev.tick 25 false, Ev.setTl [(30, 2)], Ev.tick 40 false]
    (by
      intro now d h
      simp only [List.mem_cons, List.not_mem_nil, or_false] at h
      rcases h with h | h | h
      · injection h with _ h2
      · exact Ev.noConfusion h
      · injection h with _ h2)).1

/-- C5: over any execution of one player (iterations, skips, submissions,
and wholesale timeline replacements), `last_shown` is monotone — reading
it after further events never yields a smaller key; moreover whenever an
iteration changes `shown` it sets it to a key of the then-current
timeline, and `set_timeline` itself never changes it. -/
theorem last_shown_monotone (st : PlayerState) (evs1 evs2 : List Ev)
    (hs : TlSorted st.timeline)
    (hwf : ∀ e ∈ evs1 ++ evs2, evOK e = true) :
    last_shown (run st evs1).1 ≤ last_shown (run st (evs1 ++ evs2)).1 ∧
    (∀ (st2 : PlayerState) (now : Time) (d : Bool),
      last_shown (playerStep st2 now d).1 ≠ last_shown st2 →
      last_shown (playerStep st2 now d).1 ∈ tlkeys st2.timeline) ∧
    (∀ (st2 : PlayerState) (tl : Timeline),
      last_shown (set_timeline st2 tl).1 = last_shown st2) := by
  refine ⟨?_, ?_, fun st2 tl => rfl⟩
  · have hwf1 : ∀ e ∈ evs1, evOK e = true :=
      fun e h => hwf e (by simp [h])
    have hwf2 : ∀ e ∈ evs2, evOK e = true :=
      fun e h => hwf e (by simp [h])
    have hm1 := run_master evs1 st hs hwf1
    have hm2 := run_master evs2 (run st evs1).1 hm1.1 hwf2
    rw [show (run st (evs1 ++ evs2)).1 = (run (run st evs1).1 evs2).1 from
      (run_append st evs1 evs2).1]
    exact hm2.2.1
  · intro st2 now d hne
    exact playerStep_shown_mem st2 now d hne

theorem last_shown_monotone_witness :
    last_shown (run ⟨[((10 : Time), (0 : Atom)), (20, 1)], 0, false⟩
        [Ev.tick 15 true]).1 ≤
      last_shown (run ⟨[((10 : Time), (0 : Atom)), (20, 1)], 0, false⟩
        ([Ev.tick 15 true] ++ [Ev.setTl [(20, 5), (30, 6)], Ev.tick 35 true])).1 :=
  (last_shown_monotone ⟨[((10 : Time), (0 : Atom)), (20, 1)], 0, false⟩
    [Ev.tick 15 true] [Ev.setTl [(20, 5), (30, 6)], Ev.tick 35 true]
    (by decide) (by decide)).1

/-- C6: within one player execution, the sequence of timeline keys passed
to the driver's `update` is strictly increasing: each submission's key
strictly exceeds every earlier submission's key. -/
theorem submissions_strictly_increasing (st : PlayerState) (evs : List Ev)
    (hs : TlSorted st.timeline) (hwf : ∀ e ∈ evs, evOK e = true) :
    List.Pairwise (fun p q => p.1 < q.1) (run st evs).2 :=
  (run_master evs st hs hwf).2.2.1

theorem submissions_strictly_increasing_witness :
    List.Pairwise (fun p q : Time × Atom => p.1 < q.1)
      (run ⟨[((10 : Time), (0 : Atom)), (20, 1)], 0, false⟩
        [Ev.tick 10 true, Ev.tick 20 true]).2 :=
  submissions_strictly_increasing
    ⟨[((10 : Time), (0 : Atom)), (20, 1)], 0, false⟩
    [Ev.tick 10 true, Ev.tick 20 true] (by decide) (by decide)

/-- C1: when `now` equals a not-yet-shown timeline key exactly, the
upper-bound-and-step-back selection picks exactly that entry's position —
not the prior one — its key is not skipped, and (driver ready) its atom is
the one submitted. -/
theorem select_exact_key (tl : Timeline) (sh : Time) (i : Nat)
    (hi : i < tl.length) (k : Time) (a : Atom) (hs : TlSorted tl)
    (hget : tl.get ⟨i, hi⟩ = (k, a)) (hsh : sh < k) :
    selectShow tl sh k = i ∧
    k ∉ skipKeys tl sh k ∧
    (playerStep ⟨tl, sh, false⟩ k true).2.1 = StepResult.submitted k a := by
  have hub : upperBound tl k = i + 1 := by
    apply upperBound_eq_succ tl k hs i hi
    · rw [hget]
    · intro h2
      have hlt := key_lt_key tl hs i (i + 1) hi h2 (by omega)
      rw [hget] at hlt
      exact hlt
  have hsel : selectShow tl sh k = i := by
    simp only [selectShow]
    rw [hub]
    rw [if_neg (Nat.succ_ne_zero i), Nat.add_sub_cancel,
      List.get?_eq_get hi, hget]
    dsimp only
    rw [if_pos hsh]
  have hp : tl.get? (selectShow tl sh k) = some (k, a) := by
    rw [hsel, List.get?_eq_get hi, hget]
  refine ⟨hsel, ?_, ?_⟩
  · intro hk
    have := skipKeys_lt_selected tl sh k hs (k, a) hp k hk
    exact lt_irrefl k this
  · have hne : tl.isEmpty = false := by
      cases tl with
      | nil => simp at hi
      | cons _ _ => rfl
    exact (playerStep_submit_branch tl sh k (k, a) hne hp
      (lt_irrefl k)).1

theorem select_exact_key_witness :
    selectShow [((5 : Time), (1 : Atom)), (10, 2)] 0 10 = 1 ∧
    (10 : Time) ∉ skipKeys [((5 : Time), (1 : Atom)), (10, 2)] 0 10 ∧
    (playerStep ⟨[((5 : Time), (1 : Atom)), (10, 2)], 0, false⟩ 10
      true).2.1 = StepResult.submitted 10 2 :=
  select_exact_key [((5 : Time), (1 : Atom)), (10, 2)] 0 1 (by decide)
    10 2 (by decide) (by decide) (by decide)

/-- C3: skip accounting.  The skip loop visits exactly the timeline keys
strictly between the previous `shown` and the selected key, in increasing
order; one warning carrying `(scheduled, age)` is emitted per skip; a
submission is never of a skipped key, and it sets `last_shown` to the
greatest due key; and when every key is in the past, the latest entry is
the one submitted while every other key newer than `shown` is skipped. -/
theorem skip_accounting (tl : Timeline) (sh now : Time) (p : Time × Atom)
    (hs : TlSorted tl)
    (hp : tl.get? (selectShow tl sh now) = some p) :
    (∀ k, k ∈ skipKeys tl sh now ↔
      (k ∈ tlkeys tl ∧ sh < k ∧ k < p.1)) ∧
    List.Pairwise (fun k1 k2 => k1 < k2) (skipKeys tl sh now) ∧
    (∀ d : Bool, (playerStep ⟨tl, sh, false⟩ now d).2.2 =
      (skipKeys tl sh now).map (fun k => (k, now - k))) ∧
    (∀ (d : Bool) (k : Time) (a : Atom),
      (playerStep ⟨tl, sh, false⟩ now d).2.1 = StepResult.submitted k a →
      k ∉ skipKeys tl sh now ∧
      last_shown (playerStep ⟨tl, sh, false⟩ now d).1 = k ∧
      ∀ k2 ∈ tlkeys tl, k2 ≤ now → k2 ≤ k) ∧
    ((∀ q ∈ tl, q.1 ≤ now) →
      (playerStep ⟨tl, sh, false⟩ now true).2.1 =
        StepResult.submitted p.1 p.2 ∧
      tl.get? (tl.length - 1) = some p ∧
      ∀ k ∈ tlkeys tl, sh < k → k < p.1 → k ∈ skipKeys tl sh now) := by
  refine ⟨fun k => skipKeys_iff tl sh now hs p hp k,
    skipKeys_pairwise tl sh now hs, ?_, ?_, ?_⟩
  · intro d
    exact (playerStep_cases ⟨tl, sh, false⟩ now d).2.2.1
  · intro d k a hsub
    have hsd := playerStep_submitted ⟨tl, sh, false⟩ now d k a hs hsub
    have hpk : p = (k, a) := by
      have h1 := hsd.1
      rw [hp] at h1
      exact Option.some.inj h1
    have hple : p.1 ≤ now := by rw [hpk]; exact hsd.2.2.1
    refine ⟨?_, hsd.2.2.2.2, ?_⟩
    · intro hk
      have := skipKeys_lt_selected tl sh now hs p hp k hk
      rw [hpk] at this
      exact lt_irrefl k this
    · intro k2 hk2 hk2le
      rcases List.mem_map.mp hk2 with ⟨q, hq, rfl⟩
      rcases List.mem_iff_get.mp hq with ⟨⟨j, hj⟩, hjq⟩
      have hub : j < upperBound tl now := by
        by_contra hc
        have := lt_key_of_upperBound_le tl now hs j hj (by omega)
        rw [hjq] at this
        exact absurd hk2le (not_le.mpr this)
      have hdue := selectShow_due tl sh now p hs hp hple
      have hsl : selectShow tl sh now < tl.length :=
        (List.get?_eq_some.mp hp).1
      have hsk : tl.get ⟨selectShow tl sh now, hsl⟩ = p := by
        rw [List.get?_eq_get hsl] at hp
        exact Option.some.inj hp
      rcases Nat.lt_or_ge j (selectShow tl sh now) with hlt | hge
      · have hkey := key_lt_key tl hs j _ hj hsl hlt
        rw [hjq, hsk, hpk] at hkey
        exact le_of_lt hkey
      · have hj_eq : j = selectShow tl sh now := by omega
        subst hj_eq
        have : q = p := by rw [← hjq, ← hsk]
        rw [this, hpk]
  · intro hall
    have hne : tl.isEmpty = false := by
      cases tl with
      | nil => simp at hp
      | cons _ _ => rfl
    have hple : p.1 ≤ now := hall p (List.get?_mem hp)
    have hsub := playerStep_submit_branch tl sh now p hne hp
      (not_lt.mpr hple)
    refine ⟨hsub.1, ?_, ?_⟩
    · have hdue := selectShow_due tl sh now p hs hp hple
      have hlen := upperBound_eq_length tl now hall
      have hsl : selectShow tl sh now < tl.length :=
        (List.get?_eq_some.mp hp).1
      have hfin : selectShow tl sh now = tl.length - 1 := by omega
      rw [← hfin]
      exact hp
    · intro k hk h1 h2
      exact (skipKeys_iff tl sh now hs p hp k).mpr ⟨hk, h1, h2⟩

theorem skip_accounting_witness :
    (playerStep ⟨[((10 : Time), (1 : Atom)), (20, 2), (30, 3)], 0, false⟩
      100 true).2.1 = StepResult.submitted 30 3 :=
  ((skip_accounting [((10 : Time), (1 : Atom)), (20, 2), (30, 3)] 0 100
    (30, 3) (by decide) (by decide)).2.2.2.2 (by decide)).1

end Pivid
